import Mathlib

/-!
Verification of the trace-analysis engine in
catch/torch_mlu/profiler/_utils.py (class BasicEvaluation).

The Python module is shallowly embedded below: CPU-side profiler events
form a tree (CpuEvent), device-side Kineto events are flat records
(KinetoEvent), and the four analysis passes (self time, queue depth,
idle time, ranking) are translated as pure functions over these types.
Machine integers of the source are modelled as Int; Python dicts keyed
by event identity are modelled as association lists keyed by the
event's stable id; torch float32 arithmetic in the ranking pass is
modelled as exact real arithmetic.
-/

set_option maxHeartbeats 1000000

namespace CambriconProfiler

/-- Device type tag carried by Kineto events; the analysis only
distinguishes MLU from everything else. -/
inductive DeviceType where
  | CPU
  | MLU
deriving DecidableEq, Repr

/-- CPU-side profiler event: a node of the experimental event tree, with
nanosecond timestamps, a stable identity and ordered children. -/
inductive CpuEvent where
  | node (id : Nat) (name : String) (start_time_ns : Int) (end_time_ns : Int)
      (children : List CpuEvent)

def CpuEvent.id : CpuEvent → Nat
  | .node i _ _ _ _ => i

def CpuEvent.name : CpuEvent → String
  | .node _ n _ _ _ => n

def CpuEvent.start_time_ns : CpuEvent → Int
  | .node _ _ s _ _ => s

def CpuEvent.end_time_ns : CpuEvent → Int
  | .node _ _ _ t _ => t

def CpuEvent.children : CpuEvent → List CpuEvent
  | .node _ _ _ _ cs => cs

/-- Duration of a CPU event, as exposed by the profiler event object. -/
def CpuEvent.duration_time_ns (e : CpuEvent) : Int :=
  e.end_time_ns - e.start_time_ns

/-- Device-side (Kineto) event: microsecond timestamps, a device-type
tag, a correlation id, and a stable object identity eid (standing for
Python object identity, used as dictionary key). -/
structure KinetoEvent where
  eid : Nat
  name : String
  device_type : DeviceType
  start_us : Int
  duration_us : Int
  linked_correlation_id : Int
deriving DecidableEq, Repr

/-- Metrics record attached to each CPU event
(torch.profiler._utils.EventMetrics, a dataclass whose fields default
to 0). -/
structure EventMetrics where
  duration_time_ns : Int := 0
  self_time_ns : Int := 0
  idle_time_ns : Int := 0
  queue_depth : Int := 0
deriving DecidableEq, Repr

/-- Half-open time interval [start, end) with a queue-depth payload
(torch.profiler._utils.Interval; the payload defaults to -1). -/
structure Interval where
  start : Int
  end_ : Int
  queue_depth : Int := -1
deriving DecidableEq, Repr

instance : Inhabited Interval := ⟨⟨0, 0, -1⟩⟩

/-! ### Size measures for termination of the stack-based traversals -/

mutual

def CpuEvent.sizeE : CpuEvent → Nat
  | .node _ _ _ _ cs => 1 + CpuEvent.sizeL cs

def CpuEvent.sizeL : List CpuEvent → Nat
  | [] => 0
  | c :: cs => CpuEvent.sizeE c + CpuEvent.sizeL cs

end

theorem CpuEvent.sizeL_append (a b : List CpuEvent) :
    CpuEvent.sizeL (a ++ b) = CpuEvent.sizeL a + CpuEvent.sizeL b := by
  induction a with
  | nil => simp [CpuEvent.sizeL]
  | cons c cs ih => simp [CpuEvent.sizeL, ih]; omega

theorem CpuEvent.sizeL_reverse (a : List CpuEvent) :
    CpuEvent.sizeL a.reverse = CpuEvent.sizeL a := by
  induction a with
  | nil => rfl
  | cons c cs ih =>
      simp [List.reverse_cons, CpuEvent.sizeL_append, CpuEvent.sizeL, ih]
      omega

theorem CpuEvent.sizeE_eq (e : CpuEvent) :
    e.sizeE = 1 + CpuEvent.sizeL e.children := by
  cases e
  rfl

/-! ### Self-time pass (BasicEvaluation.compute_self_time)

The Python code runs an iterative DFS over a stack (a deque popped from
the right end).  We represent the stack as a Lean list whose head is
the top (the right end of the deque); pushing the children c1..ck on
the right end therefore prepends children.reverse. -/

/-- Sum of the durations of a list of events (the inner for-loop of
compute_self_time subtracts exactly this from the parent's duration). -/
def sumDur (cs : List CpuEvent) : Int :=
  (cs.map CpuEvent.duration_time_ns).sum

/-- Self time recorded for one event: duration minus the sum of the
direct children's durations. -/
def selfFormula (e : CpuEvent) : Int :=
  e.duration_time_ns - sumDur e.children

/-- The EventMetrics record inserted for one event by
compute_self_time: self_time_ns and duration_time_ns are set, the other
fields keep their dataclass defaults. -/
def entryFor (e : CpuEvent) : EventMetrics :=
  { self_time_ns := selfFormula e, duration_time_ns := e.duration_time_ns }

/-- Diagnostic produced by the duplicate-id assertion in
compute_self_time. -/
def dupMsg (e : CpuEvent) : String :=
  "Duplicate id: " ++ toString e.id ++ ", " ++ e.name

/-- Stack loop of compute_self_time.  Pops the top event, computes its
self time, pushes its children, asserts that its key is fresh and
records its metrics.  The assertion failure is modelled as an error
result. -/
def computeSelfTimeLoop :
    List CpuEvent → List (Nat × EventMetrics) →
      Except String (List (Nat × EventMetrics))
  | [], m => .ok m
  | e :: rest, m =>
      if (m.lookup e.id).isSome then
        .error (dupMsg e)
      else
        computeSelfTimeLoop (e.children.reverse ++ rest) ((e.id, entryFor e) :: m)
termination_by stack _ => CpuEvent.sizeL stack
decreasing_by
  simp [CpuEvent.sizeL_append, CpuEvent.sizeL_reverse, CpuEvent.sizeL,
    CpuEvent.sizeE_eq]

/-- compute_self_time: the stack is initialised with the tree roots and
popped from the right end, hence roots.reverse. -/
def computeSelfTime (tree : List CpuEvent) :
    Except String (List (Nat × EventMetrics)) :=
  computeSelfTimeLoop tree.reverse []

/-- Visit order of the stack DFS (the insertion order of the metrics
dictionary keys). -/
def dfsOrder : List CpuEvent → List CpuEvent
  | [] => []
  | e :: rest => e :: dfsOrder (e.children.reverse ++ rest)
termination_by stack => CpuEvent.sizeL stack
decreasing_by
  simp [CpuEvent.sizeL_append, CpuEvent.sizeL_reverse, CpuEvent.sizeL,
    CpuEvent.sizeE_eq]

/-- Keys of self.metrics in insertion order. -/
def selfTimeKeys (tree : List CpuEvent) : List CpuEvent :=
  dfsOrder tree.reverse

/-! ### Subtrees -/

mutual

/-- An event together with all of its descendants, in preorder. -/
def CpuEvent.subtree : CpuEvent → List CpuEvent
  | .node i n s t cs => .node i n s t cs :: CpuEvent.subtreeL cs

/-- All events of a forest together with their descendants. -/
def CpuEvent.subtreeL : List CpuEvent → List CpuEvent
  | [] => []
  | c :: cs => CpuEvent.subtree c ++ CpuEvent.subtreeL cs

end

theorem CpuEvent.subtree_eq (e : CpuEvent) :
    e.subtree = e :: CpuEvent.subtreeL e.children := by
  cases e
  rfl

theorem CpuEvent.subtreeL_append (a b : List CpuEvent) :
    CpuEvent.subtreeL (a ++ b) = CpuEvent.subtreeL a ++ CpuEvent.subtreeL b := by
  induction a with
  | nil => rfl
  | cons c cs ih => simp [CpuEvent.subtreeL, ih]

theorem CpuEvent.mem_subtree_self (e : CpuEvent) : e ∈ e.subtree := by
  rw [CpuEvent.subtree_eq]
  exact List.mem_cons_self e _

theorem CpuEvent.mem_subtreeL_iff (v : CpuEvent) (l : List CpuEvent) :
    v ∈ CpuEvent.subtreeL l ↔ ∃ c ∈ l, v ∈ c.subtree := by
  induction l with
  | nil => simp [CpuEvent.subtreeL]
  | cons c cs ih => simp [CpuEvent.subtreeL, ih]

theorem CpuEvent.subtreeL_reverse_perm (l : List CpuEvent) :
    List.Perm (CpuEvent.subtreeL l.reverse) (CpuEvent.subtreeL l) := by
  induction l with
  | nil => exact List.Perm.refl _
  | cons c cs ih =>
      rw [List.reverse_cons, CpuEvent.subtreeL_append]
      refine List.Perm.trans List.perm_append_comm ?_
      simp only [CpuEvent.subtreeL, List.append_nil]
      exact List.Perm.append_left _ ih

theorem CpuEvent.sizeE_le_of_mem {c : CpuEvent} {l : List CpuEvent}
    (h : c ∈ l) : c.sizeE ≤ CpuEvent.sizeL l := by
  induction l with
  | nil => cases h
  | cons d ds ih =>
      rcases List.mem_cons.mp h with h | h
      · subst h; simp [CpuEvent.sizeL]
      · have := ih h
        simp [CpuEvent.sizeL]
        omega

/-- Telescoping identity for the recorded self times: the per-node
formulas over a whole forest sum to the durations of the roots. -/
theorem subtreeL_sum (l : List CpuEvent) :
    ((CpuEvent.subtreeL l).map selfFormula).sum = sumDur l := by
  generalize hn : CpuEvent.sizeL l = n
  induction n using Nat.strong_induction_on generalizing l with
  | _ n ih =>
      cases l with
      | nil => simp [CpuEvent.subtreeL, sumDur]
      | cons c cs =>
          subst hn
          have hszc : CpuEvent.sizeL c.children < CpuEvent.sizeL (c :: cs) := by
            simp only [CpuEvent.sizeL, CpuEvent.sizeE_eq]
            omega
          have hszcs : CpuEvent.sizeL cs < CpuEvent.sizeL (c :: cs) := by
            simp only [CpuEvent.sizeL, CpuEvent.sizeE_eq]
            omega
          have h1 := ih _ hszc c.children rfl
          have h2 := ih _ hszcs cs rfl
          rw [CpuEvent.subtreeL, CpuEvent.subtree_eq]
          simp only [List.cons_append, List.map_cons, List.map_append,
            List.sum_cons, List.sum_append, h1, h2, selfFormula, sumDur,
            List.map_cons, List.sum_cons]
          ring

/-- Telescoping identity for a single node: the formulas over a node
and all of its descendants sum to the node's duration. -/
theorem subtree_sum (e : CpuEvent) :
    ((e.subtree).map selfFormula).sum = e.duration_time_ns := by
  rw [CpuEvent.subtree_eq]
  simp only [List.map_cons, List.sum_cons, subtreeL_sum, selfFormula]
  ring

/-- Membership in a subtree is transitive. -/
theorem mem_subtree_trans {v n e : CpuEvent}
    (hv : v ∈ n.subtree) (hn : n ∈ e.subtree) : v ∈ e.subtree := by
  generalize hsz : e.sizeE = sz
  induction sz using Nat.strong_induction_on generalizing e with
  | _ sz ih =>
      subst hsz
      rw [CpuEvent.subtree_eq] at hn
      rcases List.mem_cons.mp hn with h | h
      · subst h; exact hv
      · obtain ⟨c, hc, hnc⟩ := (CpuEvent.mem_subtreeL_iff n e.children).mp h
        have hlt : c.sizeE < e.sizeE := by
          have := CpuEvent.sizeE_le_of_mem hc
          rw [CpuEvent.sizeE_eq e]
          omega
        have := ih _ hlt hnc rfl
        rw [CpuEvent.subtree_eq]
        exact List.mem_cons_of_mem _
          ((CpuEvent.mem_subtreeL_iff v e.children).mpr ⟨c, hc, this⟩)

theorem mem_subtreeL_trans {v n : CpuEvent} {l : List CpuEvent}
    (hv : v ∈ n.subtree) (hn : n ∈ CpuEvent.subtreeL l) :
    v ∈ CpuEvent.subtreeL l := by
  obtain ⟨c, hc, hnc⟩ := (CpuEvent.mem_subtreeL_iff n l).mp hn
  exact (CpuEvent.mem_subtreeL_iff v l).mpr ⟨c, hc, mem_subtree_trans hv hnc⟩

/-! ### Association-list lemmas for the metrics dictionary -/

theorem lookup_isSome_iff (m : List (Nat × EventMetrics)) (k : Nat) :
    (m.lookup k).isSome ↔ k ∈ m.map Prod.fst := by
  induction m with
  | nil => simp [List.lookup]
  | cons p ps ih =>
      obtain ⟨a, b⟩ := p
      by_cases h : k = a
      · subst h; simp [List.lookup]
      · have hb : (k == a) = false := beq_eq_false_iff_ne.mpr h
        simp [List.lookup, hb, h, ih]

theorem lookup_of_mem_nodup {m : List (Nat × EventMetrics)}
    {k : Nat} {v : EventMetrics} (hnd : (m.map Prod.fst).Nodup)
    (hm : (k, v) ∈ m) : m.lookup k = some v := by
  induction m with
  | nil => cases hm
  | cons p ps ih =>
      cases p with
      | mk a b =>
          simp only [List.map_cons, List.nodup_cons] at hnd
          rcases List.mem_cons.mp hm with h | h
          · cases h
            simp [List.lookup]
          · have hka : k ≠ a := by
              intro hk
              subst hk
              exact hnd.1 (List.mem_map.mpr ⟨(k, v), h, rfl⟩)
            have hb : (k == a) = false := beq_eq_false_iff_ne.mpr hka
            simp [List.lookup, hb]
            exact ih hnd.2 h

/-! ### Invariants of the compute_self_time loop -/

theorem loop_mem_mono {stack : List CpuEvent} {m m' : List (Nat × EventMetrics)}
    (h : computeSelfTimeLoop stack m = .ok m') {p : Nat × EventMetrics}
    (hp : p ∈ m) : p ∈ m' := by
  induction stack, m using computeSelfTimeLoop.induct with
  | case1 m =>
      rw [computeSelfTimeLoop] at h
      cases h
      exact hp
  | case2 e rest m hdup =>
      rw [computeSelfTimeLoop, if_pos hdup] at h
      cases h
  | case3 e rest m hdup ih =>
      rw [computeSelfTimeLoop, if_neg hdup] at h
      exact ih h (List.mem_cons_of_mem _ hp)

theorem loop_records {stack : List CpuEvent} {m m' : List (Nat × EventMetrics)}
    (h : computeSelfTimeLoop stack m = .ok m') :
    ∀ e ∈ dfsOrder stack, (e.id, entryFor e) ∈ m' := by
  induction stack, m using computeSelfTimeLoop.induct with
  | case1 m => simp [dfsOrder]
  | case2 e rest m hdup =>
      rw [computeSelfTimeLoop, if_pos hdup] at h
      cases h
  | case3 e rest m hdup ih =>
      rw [computeSelfTimeLoop, if_neg hdup] at h
      intro v hv
      rw [dfsOrder] at hv
      rcases List.mem_cons.mp hv with hv | hv
      · subst hv
        exact loop_mem_mono h (List.mem_cons_self _ _)
      · exact ih h v hv

theorem loop_keys_nodup {stack : List CpuEvent} {m m' : List (Nat × EventMetrics)}
    (hnd : (m.map Prod.fst).Nodup)
    (h : computeSelfTimeLoop stack m = .ok m') :
    (m'.map Prod.fst).Nodup := by
  induction stack, m using computeSelfTimeLoop.induct with
  | case1 m =>
      rw [computeSelfTimeLoop] at h
      cases h
      exact hnd
  | case2 e rest m hdup =>
      rw [computeSelfTimeLoop, if_pos hdup] at h
      cases h
  | case3 e rest m hdup ih =>
      rw [computeSelfTimeLoop, if_neg hdup] at h
      refine ih ?_ h
      simp only [List.map_cons, List.nodup_cons]
      refine ⟨?_, hnd⟩
      intro hk
      exact hdup ((lookup_isSome_iff m e.id).mpr hk)

theorem loop_result_perm {stack : List CpuEvent} {m m' : List (Nat × EventMetrics)}
    (h : computeSelfTimeLoop stack m = .ok m') :
    List.Perm m' ((dfsOrder stack).map (fun e => (e.id, entryFor e)) ++ m) := by
  induction stack, m using computeSelfTimeLoop.induct with
  | case1 m =>
      rw [computeSelfTimeLoop] at h
      cases h
      simp [dfsOrder]
  | case2 e rest m hdup =>
      rw [computeSelfTimeLoop, if_pos hdup] at h
      cases h
  | case3 e rest m hdup ih =>
      rw [computeSelfTimeLoop, if_neg hdup] at h
      have := ih h
      rw [dfsOrder]
      refine this.trans ?_
      simp only [List.map_cons, List.cons_append]
      exact List.perm_middle

theorem loop_error_msg {stack : List CpuEvent} {m : List (Nat × EventMetrics)}
    {s : String} (h : computeSelfTimeLoop stack m = .error s) :
    ∃ e ∈ dfsOrder stack, s = dupMsg e := by
  induction stack, m using computeSelfTimeLoop.induct with
  | case1 m =>
      rw [computeSelfTimeLoop] at h
      cases h
  | case2 e rest m hdup =>
      rw [computeSelfTimeLoop, if_pos hdup] at h
      cases h
      exact ⟨e, by rw [dfsOrder]; exact List.mem_cons_self _ _, rfl⟩
  | case3 e rest m hdup ih =>
      rw [computeSelfTimeLoop, if_neg hdup] at h
      obtain ⟨v, hv, hs⟩ := ih h
      exact ⟨v, by rw [dfsOrder]; exact List.mem_cons_of_mem _ hv, hs⟩

theorem dfsOrder_perm (stack : List CpuEvent) :
    List.Perm (dfsOrder stack) (CpuEvent.subtreeL stack) := by
  induction stack using dfsOrder.induct with
  | case1 =>
      rw [dfsOrder]
      exact List.Perm.refl _
  | case2 e rest ih =>
      rw [dfsOrder]
      refine (List.Perm.cons e ih).trans ?_
      rw [CpuEvent.subtreeL_append, CpuEvent.subtreeL, CpuEvent.subtree_eq]
      simp only [List.cons_append, List.append_assoc]
      exact List.Perm.cons _ (List.Perm.append_right _
        (CpuEvent.subtreeL_reverse_perm e.children))

/-- Self time recorded in the metrics dictionary for a given key. -/
def metricSelf (m : List (Nat × EventMetrics)) (i : Nat) : Int :=
  ((m.lookup i).getD {}).self_time_ns

theorem selfTime_keys_perm {tree : List CpuEvent}
    {m : List (Nat × EventMetrics)} (hok : computeSelfTime tree = .ok m) :
    List.Perm (m.map Prod.fst) ((CpuEvent.subtreeL tree).map CpuEvent.id) := by
  rw [computeSelfTime] at hok
  have hperm := loop_result_perm hok
  have h1 : List.Perm (m.map Prod.fst)
      (((dfsOrder tree.reverse).map (fun e => (e.id, entryFor e))).map Prod.fst) := by
    have := hperm.map Prod.fst
    simpa using this
  have h2 : ((dfsOrder tree.reverse).map (fun e => (e.id, entryFor e))).map Prod.fst
      = (dfsOrder tree.reverse).map CpuEvent.id := by
    simp [List.map_map]
  rw [h2] at h1
  refine h1.trans ?_
  exact ((dfsOrder_perm tree.reverse).trans
    (CpuEvent.subtreeL_reverse_perm tree)).map CpuEvent.id

theorem selfTime_metrics_defaults {tree : List CpuEvent}
    {m : List (Nat × EventMetrics)} (hok : computeSelfTime tree = .ok m) :
    ∀ kv ∈ m, kv.2.idle_time_ns = 0 ∧ kv.2.queue_depth = 0 := by
  rw [computeSelfTime] at hok
  have hperm := loop_result_perm hok
  intro kv hkv
  have hkv2 := hperm.mem_iff.mp hkv
  simp only [List.append_nil, List.mem_map] at hkv2
  obtain ⟨e, _, he⟩ := hkv2
  subst he
  exact ⟨rfl, rfl⟩

/-- Claim C1: for every well-formed event tree (one on which
compute_self_time succeeds, i.e. no duplicated event identities), the
recorded self_time_ns values over a node and all of its descendants sum
to that node's duration_time_ns, each event's self time being its
duration minus the sum of its direct children's durations. -/
theorem compute_self_time_subtree_sum (tree : List CpuEvent)
    (m : List (Nat × EventMetrics)) (hok : computeSelfTime tree = .ok m)
    (n : CpuEvent) (hn : n ∈ CpuEvent.subtreeL tree) :
    ((n.subtree).map (fun v => metricSelf m v.id)).sum = n.duration_time_ns := by
  rw [computeSelfTime] at hok
  have hrec := loop_records hok
  have hnd := loop_keys_nodup (by simp) hok
  have hperm2 : List.Perm (dfsOrder tree.reverse) (CpuEvent.subtreeL tree) :=
    (dfsOrder_perm tree.reverse).trans (CpuEvent.subtreeL_reverse_perm tree)
  have key : ∀ v ∈ n.subtree, metricSelf m v.id = selfFormula v := by
    intro v hv
    have hvl : v ∈ CpuEvent.subtreeL tree := mem_subtreeL_trans hv hn
    have hvd : v ∈ dfsOrder tree.reverse := hperm2.mem_iff.mpr hvl
    have hmem := hrec v hvd
    have hlk := lookup_of_mem_nodup hnd hmem
    simp [metricSelf, hlk, entryFor]
  rw [List.map_congr_left key, subtree_sum]

/-- Root event of the worked self-time scenario: duration 100ns with a
single 30ns child. -/
def c1Child : CpuEvent := .node 1 "child" 10 40 []

def c1Root : CpuEvent := .node 0 "root" 0 100 [c1Child]

/-- The metrics produced by compute_self_time on the scenario tree. -/
def c1Metrics : List (Nat × EventMetrics) :=
  [(1, entryFor c1Child), (0, entryFor c1Root)]

theorem c1Metrics_ok : computeSelfTime [c1Root] = .ok c1Metrics := by
  simp [computeSelfTime, computeSelfTimeLoop, c1Root, c1Child, c1Metrics,
    List.lookup, CpuEvent.children, CpuEvent.id]

theorem c1Root_mem : c1Root ∈ CpuEvent.subtreeL [c1Root] := by
  simp only [CpuEvent.subtreeL, List.append_nil]
  exact CpuEvent.mem_subtree_self _

/-- Witness for C1: on the concrete two-node tree the recorded self
times over the root's subtree sum to the root's 100ns duration. -/
theorem compute_self_time_subtree_sum_witness :
    ((c1Root.subtree).map (fun v => metricSelf c1Metrics v.id)).sum
      = c1Root.duration_time_ns :=
  compute_self_time_subtree_sum [c1Root] c1Metrics c1Metrics_ok c1Root c1Root_mem

/-- Claim C9: a duplicated event identity makes compute_self_time abort
with a diagnostic naming the offending event, and on success every
CPU-tree event appears exactly once as a metrics key. -/
theorem compute_self_time_duplicate_abort (tree : List CpuEvent) :
    (¬ ((CpuEvent.subtreeL tree).map CpuEvent.id).Nodup →
      ∃ e ∈ CpuEvent.subtreeL tree,
        computeSelfTime tree = .error (dupMsg e)) ∧
    (∀ m, computeSelfTime tree = .ok m →
      ∀ e ∈ CpuEvent.subtreeL tree, (m.map Prod.fst).count e.id = 1) := by
  constructor
  · intro hdup
    match hres : computeSelfTime tree with
    | .ok m =>
        exfalso
        have hnd : (m.map Prod.fst).Nodup := by
          rw [computeSelfTime] at hres
          exact loop_keys_nodup (by simp) hres
        have := ((selfTime_keys_perm hres).nodup_iff).mp hnd
        exact hdup this
    | .error s =>
        have hres' := hres
        rw [computeSelfTime] at hres'
        obtain ⟨e, he, hs⟩ := loop_error_msg hres'
        have hperm2 : List.Perm (dfsOrder tree.reverse) (CpuEvent.subtreeL tree) :=
          (dfsOrder_perm tree.reverse).trans (CpuEvent.subtreeL_reverse_perm tree)
        exact ⟨e, hperm2.mem_iff.mp he, by rw [hs]⟩
  · intro m hok e he
    have hnd : (m.map Prod.fst).Nodup := by
      rw [computeSelfTime] at hok
      exact loop_keys_nodup (by simp) hok
    have hmem : e.id ∈ m.map Prod.fst := by
      rw [computeSelfTime] at hok
      have hperm2 : List.Perm (dfsOrder tree.reverse) (CpuEvent.subtreeL tree) :=
        (dfsOrder_perm tree.reverse).trans (CpuEvent.subtreeL_reverse_perm tree)
      have := loop_records hok e (hperm2.mem_iff.mpr he)
      exact List.mem_map.mpr ⟨(e.id, entryFor e), this, rfl⟩
    exact List.count_eq_one_of_mem hnd hmem

/-- Two sibling events sharing the identity 7. -/
def c9a : CpuEvent := .node 7 "a" 0 10 []

def c9b : CpuEvent := .node 7 "b" 10 20 []

/-- Witness for C9: on a forest with a duplicated id, compute_self_time
returns the duplicate-id diagnostic of one of its events. -/
theorem compute_self_time_duplicate_abort_witness :
    ∃ e ∈ CpuEvent.subtreeL [c9a, c9b],
      computeSelfTime [c9a, c9b] = .error (dupMsg e) :=
  (compute_self_time_duplicate_abort [c9a, c9b]).1 (by
    simp [CpuEvent.subtreeL, CpuEvent.subtree, c9a, c9b, CpuEvent.id])

/-- Claim C10: compute_self_time only fills self_time_ns and
duration_time_ns; the idle_time_ns and queue_depth fields of every
created EventMetrics record still hold the dataclass defaults. -/
theorem compute_self_time_frame (tree : List CpuEvent)
    (m : List (Nat × EventMetrics)) (hok : computeSelfTime tree = .ok m) :
    ∀ kv ∈ m, kv.2.idle_time_ns = ({} : EventMetrics).idle_time_ns ∧
      kv.2.queue_depth = ({} : EventMetrics).queue_depth := by
  intro kv hkv
  exact selfTime_metrics_defaults hok kv hkv

/-- Witness for C10: on the concrete two-node tree the child's produced
metrics record keeps the default idle time and queue depth. -/
theorem compute_self_time_frame_witness :
    ((1 : Nat), entryFor c1Child).2.idle_time_ns
        = ({} : EventMetrics).idle_time_ns ∧
      ((1 : Nat), entryFor c1Child).2.queue_depth
        = ({} : EventMetrics).queue_depth :=
  compute_self_time_frame [c1Root] c1Metrics c1Metrics_ok
    (1, entryFor c1Child) (by simp [c1Metrics])

/-! ### Stable sorting by key

Python's sorted() is a stable sort; we model it as a stable insertion
sort parameterised by a key function. -/

def insertByKey {α : Type} {β : Type} [LinearOrder β] (key : α → β) (x : α) :
    List α → List α
  | [] => [x]
  | y :: ys => if key x ≤ key y then x :: y :: ys else y :: insertByKey key x ys

def sortByKey {α : Type} {β : Type} [LinearOrder β] (key : α → β) :
    List α → List α
  | [] => []
  | x :: xs => insertByKey key x (sortByKey key xs)

/-- Index of the first element satisfying the predicate. -/
def findIdxFrom {α : Type} (predicate : α → Bool) : List α → Option Nat
  | [] => none
  | x :: xs =>
      if predicate x then some 0
      else (findIdxFrom predicate xs).map (fun j => j + 1)

/-- Modelled from the spec: torch.profiler._utils.index_of_first_match
is imported by the module but its source is not included; per the spec
it returns the first index at or after the given start whose element
satisfies the predicate, or no index when there is none. -/
def index_of_first_match {α : Type} (seq : List α) (predicate : α → Bool)
    (start : Nat) : Option Nat :=
  (findIdxFrom predicate (seq.drop start)).map (fun j => start + j)

/-- Maximum of a list of integers (empty list unused by callers). -/
def maxList : List Int → Int
  | [] => 0
  | [x] => x
  | x :: y :: xs => max x (maxList (y :: xs))

/-- Index of the first occurrence of the maximum. -/
def firstMaxIdx : List Int → Nat
  | [] => 0
  | [_] => 0
  | x :: y :: xs => if maxList (y :: xs) ≤ x then 0 else 1 + firstMaxIdx (y :: xs)

/-- Modelled from the spec: torch.profiler._utils.argmax is imported by
the module but its source is not included; per the spec it returns the
index (within the whole sequence) of the maximum value of the slice
from start to the optional stop, or no index when the slice is empty. -/
def argmax (seq : List Int) (start : Nat) (stop : Option Nat) : Option Nat :=
  let sub := (seq.take (match stop with | some e => e | none => seq.length)).drop start
  if sub.isEmpty then none else some (start + firstMaxIdx sub)

/-! ### Queue-depth pass (BasicEvaluation.compute_queue_depth) -/

/-- Lower-cases a name, modelling str.lower for the ASCII names involved. -/
def strLower (s : String) : String :=
  String.mk (s.toList.map Char.toLower)

/-- Substring containment test, modelling the Python in operator. -/
def strContains (s pat : String) : Bool :=
  s.toList.tails.any (fun t => pat.toList.isPrefixOf t)

def is_mlu_launch_kernel (e : KinetoEvent) : Bool :=
  e.name == "cnInvokeKernel"

def is_mlu_kernel (e : KinetoEvent) : Bool :=
  (e.device_type == DeviceType.MLU) && !(strContains (strLower e.name) "mem")

/-- Launch-to-kernel correlation loop: for every launch event, find the
first kernel event at or after the monotone cursor whose correlation id
matches; the cursor advances only on a successful match.  The mapping
is keyed by the launch's object identity. -/
def buildKernelMapping (mlu_kernel_events : List KinetoEvent) :
    List KinetoEvent → Nat → List (Nat × Option Nat)
  | [], _ => []
  | l :: ls, last_mapped_kernel =>
      let index := index_of_first_match mlu_kernel_events
        (fun x => x.linked_correlation_id == l.linked_correlation_id)
        last_mapped_kernel
      (l.eid, index) :: buildKernelMapping mlu_kernel_events ls
        (match index with | some i => i | none => last_mapped_kernel)

/-- Number of leading kernels (from the current cursor) whose start is
at or before the given time; the while loop of the sweep advances the
kernel cursor by exactly this count. -/
def advanceCount (start_time : Int) : List KinetoEvent → Nat
  | [] => 0
  | k :: rest =>
      if k.start_us * 1000 ≤ start_time then 1 + advanceCount start_time rest
      else 0

/-- New value of current_kernel_index after the while loop. -/
def advance (mlu_kernel_events : List KinetoEvent) (cki : Nat)
    (start_time : Int) : Nat :=
  cki + advanceCount start_time (mlu_kernel_events.drop cki)

/-- An element of the merged event sequence: either a device event (with
microsecond timestamps) or a CPU-tree event (nanosecond timestamps). -/
inductive MergedEvent where
  | dev (e : KinetoEvent)
  | cpu (e : CpuEvent)

/-- Sort key of the merged sequence, nanoseconds for both shapes. -/
def new_old_event_comparator : MergedEvent → Int
  | .dev e => e.start_us * 1000
  | .cpu e => e.start_time_ns

/-- Mutable state of the sweep over the merged sequence. -/
structure QDState where
  current_kernel_index : Nat
  spawned_kernel_index : Int
  queue_depth_list : List Interval
  metrics : List (Nat × EventMetrics)

/-- Overwrite the queue_depth field of the metrics entry with the given
key (dictionary assignment in the Python code). -/
def updateQueueDepth : List (Nat × EventMetrics) → Nat → Int →
    List (Nat × EventMetrics)
  | [], _, _ => []
  | (k, v) :: rest, i, d =>
      if k = i then (k, { v with queue_depth := d }) :: rest
      else (k, v) :: updateQueueDepth rest i d

/-- Body of the sweep loop of compute_queue_depth for one merged event. -/
def sweepStep (mlu_kernel_events : List KinetoEvent)
    (kernel_mapping : List (Nat × Option Nat)) (st : QDState)
    (event : MergedEvent) : QDState :=
  match event with
  | .dev e =>
      let start_time := e.start_us * 1000
      let end_time := (e.start_us + e.duration_us) * 1000
      let spawned : Int :=
        match kernel_mapping.lookup e.eid with
        | some (some idx) => (idx : Int)
        | _ => st.spawned_kernel_index
      let cki := advance mlu_kernel_events st.current_kernel_index start_time
      let depth := max (spawned - (cki : Int) + 1) 0
      { st with
        current_kernel_index := cki
        spawned_kernel_index := spawned
        queue_depth_list := st.queue_depth_list ++ [⟨start_time, end_time, depth⟩] }
  | .cpu e =>
      let start_time := e.start_time_ns
      let cki := advance mlu_kernel_events st.current_kernel_index start_time
      let depth := max (st.spawned_kernel_index - (cki : Int) + 1) 0
      { st with
        current_kernel_index := cki
        metrics := updateQueueDepth st.metrics e.id depth }

/-- Result of compute_queue_depth: the interval timeline it returns, the
updated metrics dictionary, and the combined self.mlu_events list. -/
structure QDResult where
  queue_depth_list : List Interval
  metrics : List (Nat × EventMetrics)
  mlu_events : List KinetoEvent

/-- compute_queue_depth: partition and sort the device events, correlate
launches to kernels, merge with the CPU events and sweep. -/
def computeQueueDepth (mlu_event_list : List KinetoEvent)
    (events : List CpuEvent) (metrics : List (Nat × EventMetrics)) : QDResult :=
  let mlu_launch_events :=
    sortByKey (fun x => x.start_us) (mlu_event_list.filter is_mlu_launch_kernel)
  let mlu_kernel_events :=
    sortByKey (fun x => x.start_us) (mlu_event_list.filter is_mlu_kernel)
  let mlu_events :=
    sortByKey (fun x => x.start_us) (mlu_launch_events ++ mlu_kernel_events)
  let kernel_mapping := buildKernelMapping mlu_kernel_events mlu_launch_events 0
  let all_events := sortByKey new_old_event_comparator
    ((mlu_launch_events ++ mlu_kernel_events).map MergedEvent.dev
      ++ events.map MergedEvent.cpu)
  let final := all_events.foldl (sweepStep mlu_kernel_events kernel_mapping)
    ⟨0, -1, [], metrics⟩
  ⟨final.queue_depth_list, final.metrics, mlu_events⟩

/-! ### Idle-time pass (BasicEvaluation.compute_idle_time) -/

/-- Scan of the queue-depth intervals: entering a depth-0 interval while
not idle records its end as idle_start; the first later interval with
positive depth closes the idle interval at its start. -/
def idleScan : List Interval → Bool → Int → List Interval
  | [], _, _ => []
  | d :: rest, idle, idle_start =>
      let st1 := if d.queue_depth = 0 ∧ ¬idle then (true, d.end_) else (idle, idle_start)
      if 0 < d.queue_depth ∧ st1.1 then
        Interval.mk st1.2 d.start (-1) :: idleScan rest false st1.2
      else idleScan rest st1.1 st1.2

/-- Final value of the idle flag after scanning a list (the flag does
not depend on idle_start). -/
def idleFlagAfter : List Interval → Bool → Bool
  | [], idle => idle
  | d :: rest, idle =>
      let idle1 := if d.queue_depth = 0 ∧ ¬idle then true else idle
      idleFlagAfter rest (if 0 < d.queue_depth ∧ idle1 then false else idle1)

instance : Inhabited CpuEvent := ⟨.node 0 "" 0 0 []⟩

/-- Overwrite the idle_time_ns field of the metrics entry with the given
key. -/
def updateIdle : List (Nat × EventMetrics) → Nat → Int →
    List (Nat × EventMetrics)
  | [], _, _ => []
  | (k, v) :: rest, i, d =>
      if k = i then (k, { v with idle_time_ns := d }) :: rest
      else (k, v) :: updateIdle rest i d

/-- Modelled from the spec: torch.profiler._utils.EventKey.intervals_overlap
is imported by the module but its source is not included; per the spec it
returns the total nanoseconds of overlap between the wrapped event's
[start, end) span and the union of the supplied intervals.  Implemented
as a sweep over the intervals sorted by start, counting every covered
point once. -/
def unionOverlapGo (s e : Int) : List Interval → Int → Int
  | [], _ => 0
  | iv :: rest, cov =>
      let a := max (max iv.start cov) s
      let b := min iv.end_ e
      (if a < b then b - a else 0) + unionOverlapGo s e rest (max cov iv.end_)

/-- Modelled from the spec: overlap between one CPU event's span and the
union of a list of intervals (EventKey.intervals_overlap). -/
def intervalsOverlap (ev : CpuEvent) (ivs : List Interval) : Int :=
  unionOverlapGo ev.start_time_ns ev.end_time_ns
    (sortByKey (fun i => i.start) ivs) ev.start_time_ns

/-- compute_idle_time: seed with the two boundary intervals when both
the queue-depth timeline and the CPU event list are non-empty, append
the scan intervals, then attribute overlap to every metrics key. -/
def computeIdleTime (queue_depth_list : List Interval)
    (events : List CpuEvent) (metrics : List (Nat × EventMetrics))
    (keys : List CpuEvent) : List Interval × List (Nat × EventMetrics) :=
  let seeds : List Interval :=
    match queue_depth_list, events with
    | q :: qs, e :: es =>
        [⟨e.start_time_ns, q.start, -1⟩,
         ⟨(qs.getLastD q).end_, (es.getLastD e).end_time_ns, -1⟩]
    | _, _ => []
  let idle_intervals := seeds ++ idleScan queue_depth_list false 0
  let metrics2 := keys.foldl
    (fun acc ev => updateIdle acc ev.id (intervalsOverlap ev idle_intervals))
    metrics
  (idle_intervals, metrics2)

/-! ### The full analysis pipeline (BasicEvaluation.__init__) -/

/-- State of a BasicEvaluation object after construction. -/
structure BasicEvaluation where
  metrics : List (Nat × EventMetrics)
  keysInOrder : List CpuEvent
  events : List CpuEvent
  mlu_events : List KinetoEvent
  queue_depth_list : List Interval
  idle_intervals : List Interval

/-- BasicEvaluation.__init__: self-time pass, event keys sorted by start
time, queue-depth pass, idle-time pass, in that order. -/
def basicEvaluation (tree : List CpuEvent) (device : List KinetoEvent) :
    Except String BasicEvaluation :=
  match computeSelfTime tree with
  | .error s => .error s
  | .ok m =>
      let keys := selfTimeKeys tree
      let events := sortByKey (fun e => e.start_time_ns) keys
      let qd := computeQueueDepth device events m
      let idle := computeIdleTime qd.queue_depth_list events qd.metrics keys
      .ok ⟨idle.2, keys, events, qd.mlu_events, qd.queue_depth_list, idle.1⟩

instance : Inhabited KinetoEvent := ⟨⟨0, "", .CPU, 0, 0, 0⟩⟩

/-- Queue depth at a time t according to an interval timeline: the depth
payload of the last emitted interval whose start is at or before t, and
0 before any interval has started. -/
def depthAt (l : List Interval) (t : Int) : Int :=
  match (l.filter (fun i => decide (i.start ≤ t))).getLast? with
  | some i => i.queue_depth
  | none => 0

/-- Launch event of the two-event scenario: cnInvokeKernel at t=10us
with correlation id 1. -/
def c2Launch (d1 : Int) : KinetoEvent := ⟨0, "cnInvokeKernel", .CPU, 10, d1, 1⟩

/-- Kernel event of the two-event scenario: an MLU kernel at t=12us with
correlation id 1. -/
def c2Kernel (d2 : Int) : KinetoEvent := ⟨1, "kernel", .MLU, 12, d2, 1⟩

theorem c2_qdl (d1 d2 : Int) :
    (computeQueueDepth [c2Launch d1, c2Kernel d2] [] []).queue_depth_list
      = [⟨10000, (10 + d1) * 1000, 1⟩, ⟨12000, (12 + d2) * 1000, 0⟩] := by
  have hl1 : is_mlu_launch_kernel (c2Launch d1) = true := rfl
  have hl2 : is_mlu_launch_kernel (c2Kernel d2) = false := rfl
  have hk1 : is_mlu_kernel (c2Launch d1) = false := rfl
  have hk2 : is_mlu_kernel (c2Kernel d2) = true := rfl
  norm_num [computeQueueDepth, hl1, hl2, hk1, hk2, List.filter, sortByKey,
    insertByKey, buildKernelMapping, index_of_first_match, findIdxFrom,
    c2Launch, c2Kernel, new_old_event_comparator, List.foldl, sweepStep,
    advance, advanceCount, List.lookup, updateQueueDepth,
    show ((1 : Nat) == (0 : Nat)) = false from rfl,
    show ((0 : Nat) == (0 : Nat)) = true from rfl,
    show ((1 : Int) == (1 : Int)) = true from rfl]

/-- Claim C2: with exactly one launch at t=10us (correlation id 1) and
one kernel at t=12us (correlation id 1) as device events, the produced
timeline has queue depth 1 from the launch up to (but excluding) t=12us
and queue depth 0 at and after t=12us. -/
theorem compute_queue_depth_scenario (d1 d2 : Int) (h1 : 0 ≤ d1)
    (h2 : 0 ≤ d2) (t : Int) :
    (10000 ≤ t → t < 12000 →
      depthAt (computeQueueDepth [c2Launch d1, c2Kernel d2] []
        []).queue_depth_list t = 1) ∧
    (12000 ≤ t →
      depthAt (computeQueueDepth [c2Launch d1, c2Kernel d2] []
        []).queue_depth_list t = 0) := by
  rw [c2_qdl]
  constructor
  · intro ha hb
    have hf1 : decide ((10000 : Int) ≤ t) = true := by
      simp [ha]
    have hf2 : decide ((12000 : Int) ≤ t) = false := by
      simp
      omega
    simp [depthAt, List.filter, hf1, hf2]
  · intro ha
    have hf1 : decide ((10000 : Int) ≤ t) = true := by
      simp
      omega
    have hf2 : decide ((12000 : Int) ≤ t) = true := by
      simp [ha]
    simp [depthAt, List.filter, hf1, hf2]

/-- Witness for C2: at t=11us the depth is 1 for concrete durations. -/
theorem compute_queue_depth_scenario_witness :
    depthAt (computeQueueDepth [c2Launch 2, c2Kernel 3] []
      []).queue_depth_list 11000 = 1 :=
  (compute_queue_depth_scenario 2 3 (by norm_num) (by norm_num) 11000).1
    (by norm_num) (by norm_num)

/-! ### Claim C4: launches whose correlation id never matches -/

theorem findIdxFrom_eq_none_iff {α : Type} (p : α → Bool) (xs : List α) :
    findIdxFrom p xs = none ↔ ∀ x ∈ xs, p x = false := by
  induction xs with
  | nil => simp [findIdxFrom]
  | cons x xs ih =>
      by_cases hx : p x
      · simp [findIdxFrom, hx]
      · simp only [findIdxFrom, hx, if_neg, Bool.false_eq_true, if_false]
        simp [Option.map_eq_none', ih, hx]

/-- Claim C4: a launch whose correlation id matches no kernel at or
after the cursor is mapped to no index, the correlation cursor does not
advance past it, and the sweep does not update spawned_kernel_index
when it encounters such a launch. -/
theorem launch_without_match (mlu_kernel_events ls : List KinetoEvent)
    (l : KinetoEvent) (cursor : Nat)
    (hnone : ∀ i, i < mlu_kernel_events.length → cursor ≤ i →
      (mlu_kernel_events.getD i default).linked_correlation_id
        ≠ l.linked_correlation_id) :
    index_of_first_match mlu_kernel_events
        (fun x => x.linked_correlation_id == l.linked_correlation_id)
        cursor = none ∧
    buildKernelMapping mlu_kernel_events (l :: ls) cursor
      = (l.eid, none) :: buildKernelMapping mlu_kernel_events ls cursor ∧
    ∀ (kernel_mapping : List (Nat × Option Nat)) (st : QDState),
      kernel_mapping.lookup l.eid = some none →
      (sweepStep mlu_kernel_events kernel_mapping st
        (.dev l)).spawned_kernel_index = st.spawned_kernel_index := by
  have hidx : index_of_first_match mlu_kernel_events
      (fun x => x.linked_correlation_id == l.linked_correlation_id)
      cursor = none := by
    rw [index_of_first_match, Option.map_eq_none',
      findIdxFrom_eq_none_iff]
    intro x hx
    obtain ⟨j, hj, hxj⟩ := List.mem_iff_getElem.mp hx
    rw [List.getElem_drop] at hxj
    have hlen : cursor + j < mlu_kernel_events.length := by
      have := List.length_drop cursor mlu_kernel_events
      omega
    have hne := hnone (cursor + j) hlen (by omega)
    rw [List.getD_eq_getElem _ _ hlen, hxj] at hne
    simpa using hne
  refine ⟨hidx, ?_, ?_⟩
  · rw [buildKernelMapping, hidx]
  · intro kernel_mapping st hlk
    simp [sweepStep, hlk]

/-- A kernel event whose correlation id 9 matches no launch. -/
def c4Kernel : KinetoEvent := ⟨2, "k", .MLU, 5, 1, 9⟩

/-- A launch event with correlation id 7, unmatched by any kernel. -/
def c4Launch : KinetoEvent := ⟨0, "cnInvokeKernel", .CPU, 1, 1, 7⟩

/-- Witness for C4 at concrete inputs. -/
theorem launch_without_match_witness :
    index_of_first_match [c4Kernel]
        (fun x => x.linked_correlation_id == c4Launch.linked_correlation_id)
        0 = none ∧
    buildKernelMapping [c4Kernel] [c4Launch] 0
      = (c4Launch.eid, none) :: buildKernelMapping [c4Kernel] [] 0 ∧
    ∀ (kernel_mapping : List (Nat × Option Nat)) (st : QDState),
      kernel_mapping.lookup c4Launch.eid = some none →
      (sweepStep [c4Kernel] kernel_mapping st
        (.dev c4Launch)).spawned_kernel_index = st.spawned_kernel_index :=
  launch_without_match [c4Kernel] [] c4Launch 0 (by decide)

/-! ### Claim C3: queue depth is never negative -/

theorem updateQueueDepth_nonneg {m : List (Nat × EventMetrics)} {i : Nat}
    {d : Int} (hm : ∀ kv ∈ m, 0 ≤ kv.2.queue_depth) (hd : 0 ≤ d) :
    ∀ kv ∈ updateQueueDepth m i d, 0 ≤ kv.2.queue_depth := by
  induction m with
  | nil => simp [updateQueueDepth]
  | cons p ps ih =>
      obtain ⟨k, v⟩ := p
      by_cases hk : k = i
      · simp only [updateQueueDepth, if_pos hk]
        intro kv hkv
        rcases List.mem_cons.mp hkv with h | h
        · subst h; exact hd
        · exact hm kv (List.mem_cons_of_mem _ h)
      · simp only [updateQueueDepth, if_neg hk]
        intro kv hkv
        rcases List.mem_cons.mp hkv with h | h
        · subst h; exact hm (k, v) (List.mem_cons_self _ _)
        · exact ih (fun kv hkv => hm kv (List.mem_cons_of_mem _ hkv)) kv h

theorem sweepStep_nonneg (kernels : List KinetoEvent)
    (mapping : List (Nat × Option Nat)) (st : QDState) (ev : MergedEvent)
    (h1 : ∀ i ∈ st.queue_depth_list, 0 ≤ i.queue_depth)
    (h2 : ∀ kv ∈ st.metrics, 0 ≤ kv.2.queue_depth) :
    (∀ i ∈ (sweepStep kernels mapping st ev).queue_depth_list,
      0 ≤ i.queue_depth) ∧
    (∀ kv ∈ (sweepStep kernels mapping st ev).metrics,
      0 ≤ kv.2.queue_depth) := by
  cases ev with
  | dev e =>
      constructor
      · intro i hi
        simp only [sweepStep, List.mem_append, List.mem_singleton] at hi
        rcases hi with hi | hi
        · exact h1 i hi
        · subst hi
          exact le_max_right _ _
      · intro kv hkv
        simp only [sweepStep] at hkv
        exact h2 kv hkv
  | cpu e =>
      constructor
      · intro i hi
        simp only [sweepStep] at hi
        exact h1 i hi
      · intro kv hkv
        simp only [sweepStep] at hkv
        exact updateQueueDepth_nonneg h2 (le_max_right _ _) kv hkv

theorem sweep_foldl_nonneg (kernels : List KinetoEvent)
    (mapping : List (Nat × Option Nat)) :
    ∀ (l : List MergedEvent) (st : QDState),
    (∀ i ∈ st.queue_depth_list, 0 ≤ i.queue_depth) →
    (∀ kv ∈ st.metrics, 0 ≤ kv.2.queue_depth) →
    (∀ i ∈ (l.foldl (sweepStep kernels mapping) st).queue_depth_list,
      0 ≤ i.queue_depth) ∧
    (∀ kv ∈ (l.foldl (sweepStep kernels mapping) st).metrics,
      0 ≤ kv.2.queue_depth) := by
  intro l
  induction l with
  | nil => intro st h1 h2; exact ⟨h1, h2⟩
  | cons a l ih =>
      intro st h1 h2
      have := sweepStep_nonneg kernels mapping st a h1 h2
      exact ih _ this.1 this.2

theorem computeQueueDepth_nonneg (device : List KinetoEvent)
    (events : List CpuEvent) (m : List (Nat × EventMetrics))
    (hm : ∀ kv ∈ m, 0 ≤ kv.2.queue_depth) :
    (∀ i ∈ (computeQueueDepth device events m).queue_depth_list,
      0 ≤ i.queue_depth) ∧
    (∀ kv ∈ (computeQueueDepth device events m).metrics,
      0 ≤ kv.2.queue_depth) := by
  simp only [computeQueueDepth]
  refine sweep_foldl_nonneg _ _ _ _ ?_ ?_
  · intro i hi
    cases hi
  · exact hm

theorem updateIdle_qd_preserved {m : List (Nat × EventMetrics)} {i : Nat}
    {d : Int} (hm : ∀ kv ∈ m, 0 ≤ kv.2.queue_depth) :
    ∀ kv ∈ updateIdle m i d, 0 ≤ kv.2.queue_depth := by
  induction m with
  | nil => simp [updateIdle]
  | cons p ps ih =>
      obtain ⟨k, v⟩ := p
      by_cases hk : k = i
      · simp only [updateIdle, if_pos hk]
        intro kv hkv
        rcases List.mem_cons.mp hkv with h | h
        · subst h
          exact hm (k, v) (List.mem_cons_self _ _)
        · exact hm kv (List.mem_cons_of_mem _ h)
      · simp only [updateIdle, if_neg hk]
        intro kv hkv
        rcases List.mem_cons.mp hkv with h | h
        · subst h; exact hm (k, v) (List.mem_cons_self _ _)
        · exact ih (fun kv hkv => hm kv (List.mem_cons_of_mem _ hkv)) kv h

theorem idle_foldl_qd_preserved (ivs : List Interval) :
    ∀ (keys : List CpuEvent) (m : List (Nat × EventMetrics)),
    (∀ kv ∈ m, 0 ≤ kv.2.queue_depth) →
    ∀ kv ∈ keys.foldl
      (fun acc ev => updateIdle acc ev.id (intervalsOverlap ev ivs)) m,
      0 ≤ kv.2.queue_depth := by
  intro keys
  induction keys with
  | nil => intro m hm; exact hm
  | cons a keys ih =>
      intro m hm
      exact ih _ (updateIdle_qd_preserved hm)

/-- Claim C3: on every trace accepted by the pipeline, all queue-depth
values are non-negative, both the payloads of the returned timeline and
the queue_depth snapshots stored in the CPU events' metrics. -/
theorem queue_depth_nonneg (tree : List CpuEvent)
    (device : List KinetoEvent) (ev : BasicEvaluation)
    (h : basicEvaluation tree device = .ok ev) :
    (∀ i ∈ ev.queue_depth_list, 0 ≤ i.queue_depth) ∧
    (∀ kv ∈ ev.metrics, 0 ≤ kv.2.queue_depth) := by
  unfold basicEvaluation at h
  cases hst : computeSelfTime tree with
  | error s =>
      rw [hst] at h
      cases h
  | ok m =>
      rw [hst] at h
      cases h
      have hm0 : ∀ kv ∈ m, 0 ≤ kv.2.queue_depth := by
        intro kv hkv
        have := (selfTime_metrics_defaults hst kv hkv).2
        omega
      have hqd := computeQueueDepth_nonneg device
        (sortByKey (fun e => e.start_time_ns) (selfTimeKeys tree)) m hm0
      constructor
      · exact hqd.1
      · simp only [computeIdleTime]
        exact idle_foldl_qd_preserved _ _ _ hqd.2

/-- The analysis state produced on the two-device-event trace with an
empty CPU tree. -/
def c3ev : BasicEvaluation :=
  ⟨[], [], [], [c2Launch 2, c2Kernel 3],
   [⟨10000, 12000, 1⟩, ⟨12000, 15000, 0⟩], []⟩

theorem c3ev_ok : basicEvaluation [] [c2Launch 2, c2Kernel 3] = .ok c3ev := by
  have hl1 : is_mlu_launch_kernel (c2Launch 2) = true := rfl
  have hl2 : is_mlu_launch_kernel (c2Kernel 3) = false := rfl
  have hk1 : is_mlu_kernel (c2Launch 2) = false := rfl
  have hk2 : is_mlu_kernel (c2Kernel 3) = true := rfl
  norm_num [basicEvaluation, computeSelfTime, computeSelfTimeLoop,
    selfTimeKeys, dfsOrder, c3ev, computeQueueDepth, hl1, hl2, hk1, hk2,
    List.filter, sortByKey, insertByKey, buildKernelMapping,
    index_of_first_match, findIdxFrom, c2Launch, c2Kernel,
    new_old_event_comparator, List.foldl, sweepStep, advance, advanceCount,
    List.lookup, updateQueueDepth, computeIdleTime, idleScan,
    show ((1 : Nat) == (0 : Nat)) = false from rfl,
    show ((0 : Nat) == (0 : Nat)) = true from rfl,
    show ((1 : Int) == (1 : Int)) = true from rfl]

/-- Witness for C3 on a concrete trace with one launch and one kernel. -/
theorem queue_depth_nonneg_witness :
    (∀ i ∈ c3ev.queue_depth_list, 0 ≤ i.queue_depth) ∧
    (∀ kv ∈ c3ev.metrics, 0 ≤ kv.2.queue_depth) :=
  queue_depth_nonneg [] [c2Launch 2, c2Kernel 3] c3ev c3ev_ok

/-! ### Behaviour of the idle-interval scan (claims C5 and C6) -/

theorem idleScan_cons_zero_false {d : Interval} (rest : List Interval)
    (s : Int) (hd : d.queue_depth = 0) :
    idleScan (d :: rest) false s = idleScan rest true d.end_ := by
  simp [idleScan, hd]

theorem idleScan_cons_zero_true {d : Interval} (rest : List Interval)
    (s : Int) (hd : d.queue_depth = 0) :
    idleScan (d :: rest) true s = idleScan rest true s := by
  simp [idleScan, hd]

theorem idleScan_cons_pos_true {d : Interval} (rest : List Interval)
    (s : Int) (hd : 0 < d.queue_depth) :
    idleScan (d :: rest) true s
      = Interval.mk s d.start (-1) :: idleScan rest false s := by
  have h0 : ¬(d.queue_depth = 0) := by omega
  simp [idleScan, h0, hd]

theorem idleScan_cons_pos_false {d : Interval} (rest : List Interval)
    (s : Int) (hd : 0 < d.queue_depth) :
    idleScan (d :: rest) false s = idleScan rest false s := by
  have h0 : ¬(d.queue_depth = 0) := by omega
  simp [idleScan, h0, hd]

theorem idleScan_cons_neg {d : Interval} (rest : List Interval)
    (idle : Bool) (s : Int) (hd : d.queue_depth < 0) :
    idleScan (d :: rest) idle s = idleScan rest idle s := by
  have h0 : ¬(d.queue_depth = 0) := by omega
  have h1 : ¬(0 < d.queue_depth) := by omega
  simp [idleScan, h0, h1]

theorem idleFlagAfter_cons_zero_false {d : Interval} (rest : List Interval)
    (hd : d.queue_depth = 0) :
    idleFlagAfter (d :: rest) false = idleFlagAfter rest true := by
  simp [idleFlagAfter, hd]

theorem idleFlagAfter_cons_zero_true {d : Interval} (rest : List Interval)
    (hd : d.queue_depth = 0) :
    idleFlagAfter (d :: rest) true = idleFlagAfter rest true := by
  simp [idleFlagAfter, hd]

theorem idleFlagAfter_cons_pos_true {d : Interval} (rest : List Interval)
    (hd : 0 < d.queue_depth) :
    idleFlagAfter (d :: rest) true = idleFlagAfter rest false := by
  have h0 : ¬(d.queue_depth = 0) := by omega
  simp [idleFlagAfter, h0, hd]

theorem idleFlagAfter_cons_pos_false {d : Interval} (rest : List Interval)
    (hd : 0 < d.queue_depth) :
    idleFlagAfter (d :: rest) false = idleFlagAfter rest false := by
  have h0 : ¬(d.queue_depth = 0) := by omega
  simp [idleFlagAfter, h0, hd]

theorem idleFlagAfter_cons_neg {d : Interval} (rest : List Interval)
    (idle : Bool) (hd : d.queue_depth < 0) :
    idleFlagAfter (d :: rest) idle = idleFlagAfter rest idle := by
  have h0 : ¬(d.queue_depth = 0) := by omega
  have h1 : ¬(0 < d.queue_depth) := by omega
  simp [idleFlagAfter, h0, h1]

/-- With the idle flag down, the pending idle_start value is never
consulted. -/
theorem idleScan_false_start (l : List Interval) :
    ∀ s s' : Int, idleScan l false s = idleScan l false s' := by
  induction l with
  | nil => intro s s'; rfl
  | cons d rest ih =>
      intro s s'
      rcases lt_trichotomy d.queue_depth 0 with h | h | h
      · rw [idleScan_cons_neg rest false s h, idleScan_cons_neg rest false s' h]
        exact ih s s'
      · rw [idleScan_cons_zero_false rest s h, idleScan_cons_zero_false rest s' h]
      · rw [idleScan_cons_pos_false rest s h, idleScan_cons_pos_false rest s' h]
        exact ih s s'

/-- Splitting the scan at a point where the idle flag is down. -/
theorem idleScan_append_flag_false :
    ∀ (pre t : List Interval) (idle : Bool) (s : Int),
    idleFlagAfter pre idle = false →
    idleScan (pre ++ t) idle s = idleScan pre idle s ++ idleScan t false 0 := by
  intro pre
  induction pre with
  | nil =>
      intro t idle s h
      rw [idleFlagAfter] at h
      subst h
      rw [List.nil_append, idleScan]
      exact idleScan_false_start t s 0
  | cons d pre ih =>
      intro t idle s h
      rcases lt_trichotomy d.queue_depth 0 with hd | hd | hd
      · rw [idleFlagAfter_cons_neg pre idle hd] at h
        rw [List.cons_append, idleScan_cons_neg (pre ++ t) idle s hd,
          idleScan_cons_neg pre idle s hd]
        exact ih t idle s h
      · cases idle with
        | false =>
            rw [idleFlagAfter_cons_zero_false pre hd] at h
            rw [List.cons_append, idleScan_cons_zero_false (pre ++ t) s hd,
              idleScan_cons_zero_false pre s hd]
            exact ih t true d.end_ h
        | true =>
            rw [idleFlagAfter_cons_zero_true pre hd] at h
            rw [List.cons_append, idleScan_cons_zero_true (pre ++ t) s hd,
              idleScan_cons_zero_true pre s hd]
            exact ih t true s h
      · cases idle with
        | false =>
            rw [idleFlagAfter_cons_pos_false pre hd] at h
            rw [List.cons_append, idleScan_cons_pos_false (pre ++ t) s hd,
              idleScan_cons_pos_false pre s hd]
            exact ih t false s h
        | true =>
            rw [idleFlagAfter_cons_pos_true pre hd] at h
            rw [List.cons_append, idleScan_cons_pos_true (pre ++ t) s hd,
              idleScan_cons_pos_true pre s hd]
            rw [ih t false s h, List.cons_append]

/-- Consecutive zero-depth intervals while idle produce nothing and
leave the state unchanged. -/
theorem idleScan_zeros_true :
    ∀ (mid t : List Interval) (s : Int),
    (∀ i ∈ mid, i.queue_depth = 0) →
    idleScan (mid ++ t) true s = idleScan t true s := by
  intro mid
  induction mid with
  | nil => intro t s _; rfl
  | cons d mid ih =>
      intro t s h
      have hd : d.queue_depth = 0 := h d (List.mem_cons_self _ _)
      rw [List.cons_append, idleScan_cons_zero_true (mid ++ t) s hd]
      exact ih t s (fun i hi => h i (List.mem_cons_of_mem _ hi))

/-- Counterexample to claim C5 as stated, in both of its failure modes.
First: on the timeline [0,5) depth 0 followed by [5,9) depth 2 the
(maximal) zero run starts at time 0 and the depth next exceeds 0 at
time 5, yet compute_idle_time emits only the empty interval [5,5) - the
idle interval starts at the END of the run's first interval, not at the
run's start.  Second: on the timeline [0,5) depth 5 followed by the
trailing zero run [5,9) depth 0, that maximal run gives rise to NO idle
interval at all. -/
theorem compute_idle_time_run_start_counterexample :
    ((computeIdleTime [⟨0, 5, 0⟩, ⟨5, 9, 2⟩] [] [] []).1 = [⟨5, 5, -1⟩] ∧
     ¬ ∃ i ∈ (computeIdleTime [⟨0, 5, 0⟩, ⟨5, 9, 2⟩] [] [] []).1,
        i.start = 0 ∧ i.end_ = 5) ∧
    (computeIdleTime [⟨0, 5, 5⟩, ⟨5, 9, 0⟩] [] [] []).1 = [] := by
  decide

/-- Claim C5 amended: every maximal run of consecutive depth-0
intervals that is followed by a positive-depth interval contributes
exactly one idle interval, spanning from the end of the run's first
interval to the start of that following positive interval (first
conjunct); a trailing zero run, followed by no further interval,
contributes none (second conjunct). -/
theorem idle_run_amended (pre mid post : List Interval) (z p : Interval)
    (s0 : Int) (hz : z.queue_depth = 0)
    (hmid : ∀ i ∈ mid, i.queue_depth = 0) (hp : 0 < p.queue_depth)
    (hpre : idleFlagAfter pre false = false) :
    (idleScan (pre ++ z :: (mid ++ p :: post)) false s0
      = idleScan pre false s0
        ++ Interval.mk z.end_ p.start (-1) :: idleScan post false z.end_) ∧
    idleScan (pre ++ z :: mid) false s0 = idleScan pre false s0 := by
  constructor
  · rw [idleScan_append_flag_false pre _ false s0 hpre]
    congr 1
    rw [idleScan_cons_zero_false _ _ hz, idleScan_zeros_true mid _ _ hmid,
      idleScan_cons_pos_true _ _ hp]
  · rw [idleScan_append_flag_false pre _ false s0 hpre]
    have hmid' : idleScan mid true z.end_ = [] := by
      have h3 := idleScan_zeros_true mid [] z.end_ hmid
      rw [List.append_nil] at h3
      rw [h3]
      rfl
    rw [idleScan_cons_zero_false _ _ hz, hmid', List.append_nil]

/-- Witness for the amended C5 on a concrete timeline: the followed run
produces exactly the interval [4,5), and the same run left trailing
produces nothing. -/
theorem idle_run_amended_witness :
    (idleScan ([⟨0, 2, 3⟩] ++ (⟨2, 4, 0⟩ : Interval)
        :: ([⟨4, 5, 0⟩] ++ (⟨5, 6, 2⟩ : Interval) :: [⟨6, 7, 0⟩])) false 0
      = idleScan [⟨0, 2, 3⟩] false 0
        ++ Interval.mk 4 5 (-1) :: idleScan [⟨6, 7, 0⟩] false 4) ∧
    idleScan ([⟨0, 2, 3⟩] ++ (⟨2, 4, 0⟩ : Interval) :: [⟨4, 5, 0⟩]) false 0
      = idleScan [⟨0, 2, 3⟩] false 0 :=
  idle_run_amended [⟨0, 2, 3⟩] [⟨4, 5, 0⟩] [⟨6, 7, 0⟩] ⟨2, 4, 0⟩ ⟨5, 6, 2⟩ 0
    (by decide) (by decide) (by decide) (by decide)

/-- Membership of a time point in a half-open interval. -/
def insideI (i : Interval) (t : Int) : Prop :=
  i.start ≤ t ∧ t < i.end_

instance (i : Interval) (t : Int) : Decidable (insideI i t) :=
  inferInstanceAs (Decidable (_ ∧ _))

/-- Two intervals are disjoint when no time point lies in both. -/
def DisjointI (i j : Interval) : Prop :=
  ∀ t : Int, ¬(insideI i t ∧ insideI j t)

theorem disjointI_of_le {i j : Interval} (h : i.end_ ≤ j.start) :
    DisjointI i j := by
  intro t ⟨⟨_, h1e⟩, ⟨h2s, _⟩⟩
  omega

/-- Structure of the idle intervals emitted by the scan on a timeline
sorted by start with non-negative lengths: the emitted intervals are
chain-separated and bounded by the reachable starts. -/
theorem idleScan_pairwise_aux :
    ∀ (l : List Interval) (idle : Bool) (s c D : Int),
    List.Pairwise (fun a b => a.start ≤ b.start) l →
    (∀ i ∈ l, i.start ≤ i.end_) →
    (∀ e ∈ l, c ≤ e.start) →
    (∀ e ∈ l, e.start ≤ D) →
    (idle = true → c ≤ s) →
    List.Pairwise (fun i j => i.end_ ≤ j.start) (idleScan l idle s) ∧
    ∀ j ∈ idleScan l idle s, c ≤ j.start ∧ j.end_ ≤ D := by
  intro l
  induction l with
  | nil =>
      intro idle s c D _ _ _ _ _
      constructor
      · exact List.Pairwise.nil
      · intro j hj
        cases hj
  | cons d rest ih =>
      intro idle s c D hsort hlen hc hD hcs
      have hsort' := (List.pairwise_cons.mp hsort).2
      have hhead := (List.pairwise_cons.mp hsort).1
      have hlen' : ∀ i ∈ rest, i.start ≤ i.end_ :=
        fun i hi => hlen i (List.mem_cons_of_mem _ hi)
      have hc' : ∀ e ∈ rest, c ≤ e.start :=
        fun e he => hc e (List.mem_cons_of_mem _ he)
      have hD' : ∀ e ∈ rest, e.start ≤ D :=
        fun e he => hD e (List.mem_cons_of_mem _ he)
      have hcd : c ≤ d.start := hc d (List.mem_cons_self _ _)
      have hdD : d.start ≤ D := hD d (List.mem_cons_self _ _)
      have hdd : d.start ≤ d.end_ := hlen d (List.mem_cons_self _ _)
      rcases lt_trichotomy d.queue_depth 0 with hd | hd | hd
      · rw [idleScan_cons_neg rest idle s hd]
        exact ih idle s c D hsort' hlen' hc' hD' hcs
      · cases idle with
        | false =>
            rw [idleScan_cons_zero_false rest s hd]
            exact ih true d.end_ c D hsort' hlen' hc' hD'
              (fun _ => le_trans hcd hdd)
        | true =>
            rw [idleScan_cons_zero_true rest s hd]
            exact ih true s c D hsort' hlen' hc' hD' hcs
      · cases idle with
        | false =>
            rw [idleScan_cons_pos_false rest s hd]
            exact ih false s c D hsort' hlen' hc' hD' (by simp)
        | true =>
            rw [idleScan_cons_pos_true rest s hd]
            have hrest := ih false s d.start D hsort' hlen' hhead hD' (by simp)
            constructor
            · refine List.Pairwise.cons ?_ hrest.1
              intro j hj
              exact (hrest.2 j hj).1
            · intro j hj
              rcases List.mem_cons.mp hj with hj | hj
              · subst hj
                exact ⟨hcs rfl, hdD⟩
              · exact ⟨le_trans hcd (hrest.2 j hj).1, (hrest.2 j hj).2⟩

theorem pairwise_start_le_getLastD :
    ∀ (qs : List Interval) (q : Interval),
    List.Pairwise (fun a b => a.start ≤ b.start) (q :: qs) →
    ∀ e ∈ q :: qs, e.start ≤ (qs.getLastD q).start := by
  intro qs
  induction qs with
  | nil =>
      intro q _ e he
      rcases List.mem_cons.mp he with he | he
      · subst he
        exact le_refl _
      · cases he
  | cons r rs ih =>
      intro q hsort e he
      have hqr : q.start ≤ r.start :=
        (List.pairwise_cons.mp hsort).1 r (List.mem_cons_self _ _)
      have htail := (List.pairwise_cons.mp hsort).2
      rw [List.getLastD_cons]
      rcases List.mem_cons.mp he with he | he
      · subst he
        exact le_trans hqr (ih r htail r (List.mem_cons_self _ _))
      · exact ih r htail e he

/-- Claim C6 amended (disjointness half): when the queue-depth timeline
is sorted by start and its intervals have non-negative length, the idle
intervals produced by compute_idle_time are pairwise disjoint.  (The
exact-coverage half of the claim is refuted separately: zero-depth
spans before the end of their first interval are covered neither by an
idle interval nor by a positive-depth interval.) -/
theorem compute_idle_time_disjoint (qdl : List Interval)
    (events : List CpuEvent) (metrics : List (Nat × EventMetrics))
    (keys : List CpuEvent)
    (hsorted : List.Pairwise (fun a b => a.start ≤ b.start) qdl)
    (hlen : ∀ i ∈ qdl, i.start ≤ i.end_) :
    List.Pairwise DisjointI (computeIdleTime qdl events metrics keys).1 := by
  simp only [computeIdleTime]
  cases qdl with
  | nil =>
      cases events with
      | nil =>
          simp [idleScan]
      | cons e es =>
          simp [idleScan]
  | cons q qs =>
      have hlast_mem : qs.getLastD q ∈ q :: qs := List.getLastD_mem_cons _ _
      have hlast_start : ∀ e ∈ q :: qs, e.start ≤ (qs.getLastD q).start :=
        pairwise_start_le_getLastD qs q hsorted
      have hq_start : ∀ e ∈ q :: qs, q.start ≤ e.start := by
        intro e he
        rcases List.mem_cons.mp he with he | he
        · subst he
          exact le_refl _
        · exact (List.pairwise_cons.mp hsorted).1 e he
      have hscan := idleScan_pairwise_aux (q :: qs) false 0 q.start
        ((qs.getLastD q).start) hsorted hlen hq_start hlast_start (by simp)
      cases events with
      | nil =>
          simp only [List.nil_append]
          exact hscan.1.imp (fun h => disjointI_of_le h)
      | cons e0 es =>
          simp only [List.cons_append, List.nil_append]
          have hlastlen : (qs.getLastD q).start ≤ (qs.getLastD q).end_ :=
            hlen _ hlast_mem
          refine List.Pairwise.cons ?_ (List.Pairwise.cons ?_
            (hscan.1.imp (fun h => disjointI_of_le h)))
          · intro b hb
            rcases List.mem_cons.mp hb with hb | hb
            · subst hb
              intro t ⟨⟨_, h1e⟩, ⟨h2s, _⟩⟩
              simp only at h1e h2s
              have : q.start ≤ (qs.getLastD q).start :=
                hlast_start q (List.mem_cons_self _ _)
              omega
            · intro t ⟨⟨_, h1e⟩, ⟨h2s, h2e⟩⟩
              simp only at h1e
              have := (hscan.2 b hb).1
              omega
          · intro b hb
            intro t ⟨⟨h1s, _⟩, ⟨h2s, h2e⟩⟩
            simp only at h1s
            have := (hscan.2 b hb).2
            omega

/-- CPU event spanning the whole device range of the C6 scenario. -/
def c6ev : CpuEvent := .node 0 "x" 0 9 []

/-- Counterexample to claim C6 as stated: on the timeline [0,5) depth 0,
[5,9) depth 2 (a trace whose CPU event spans [0,9)), the time point 2
lies inside the observed device range but is covered neither by an idle
interval nor by a positive-depth span, so the produced intervals do not
exactly cover the device-timeline range. -/
theorem compute_idle_time_coverage_counterexample :
    insideI ⟨0, 9, -1⟩ 2 ∧
    ¬ ((∃ i ∈ (computeIdleTime [⟨0, 5, 0⟩, ⟨5, 9, 2⟩] [c6ev]
          [(0, {})] [c6ev]).1, insideI i 2) ∨
       (∃ q ∈ [(⟨0, 5, 0⟩ : Interval), ⟨5, 9, 2⟩],
          0 < q.queue_depth ∧ insideI q 2)) := by
  decide

/-- Witness for the amended C6 on a concrete sorted timeline. -/
theorem compute_idle_time_disjoint_witness :
    List.Pairwise DisjointI (computeIdleTime [⟨0, 5, 0⟩, ⟨5, 9, 2⟩]
      [c6ev] [(0, {})] [c6ev]).1 :=
  compute_idle_time_disjoint [⟨0, 5, 0⟩, ⟨5, 9, 2⟩] [c6ev] [(0, {})] [c6ev]
    (by decide) (by decide)

/-! ### Ranking pass (BasicEvaluation.rank_events)

The queue-depth list is reversed (processed newest first); the scan
looks for indices at depth 0 followed by a peak of depth at least 4
before the next zero-crossing.  torch float32 score arithmetic is
modelled as exact real arithmetic. -/

theorem index_of_first_match_ge {α : Type} (seq : List α) (p : α → Bool)
    (start k : Nat) (h : index_of_first_match seq p start = some k) :
    start ≤ k := by
  unfold index_of_first_match at h
  cases hf : findIdxFrom p (seq.drop start) with
  | none => rw [hf] at h; cases h
  | some j =>
      rw [hf] at h
      simp only [Option.map_some'] at h
      cases h
      omega

/-- Inner for-loop of the falling-interval search: starting at index j,
return the first valid (peak index, next zero-crossing) pair, or none
when the loop exhausts the sequence. -/
def innerScan (qd_values : List Int) (j : Nat) : Option (Nat × Option Nat) :=
  if h : j < qd_values.length then
    match argmax qd_values j
        (index_of_first_match qd_values (fun x => decide (x ≤ 0)) j) with
    | some peak_idx =>
        if 4 ≤ qd_values.getD peak_idx 0 then
          some (peak_idx,
            index_of_first_match qd_values (fun x => decide (x ≤ 0)) j)
        else innerScan qd_values (j + 1)
    | none => innerScan qd_values (j + 1)
  else none
termination_by qd_values.length - j
decreasing_by
  all_goals omega

theorem innerScan_some_ge (qd_values : List Int) (j p k : Nat) :
    innerScan qd_values j = some (p, some k) → j ≤ k := by
  generalize hm : qd_values.length - j = fuel
  induction fuel generalizing j with
  | zero =>
      intro h
      rw [innerScan, dif_neg (by omega)] at h
      cases h
  | succ n ihn =>
      intro h
      by_cases hj : j < qd_values.length
      · rw [innerScan, dif_pos hj] at h
        cases hq : argmax qd_values j
            (index_of_first_match qd_values (fun x => decide (x ≤ 0)) j) with
        | none =>
            simp only [hq] at h
            exact le_trans (by omega) (ihn (j + 1) (by omega) h)
        | some pk =>
            simp only [hq] at h
            by_cases hth : 4 ≤ qd_values.getD pk 0
            · rw [if_pos hth] at h
              injection h with h1
              injection h1 with h1 h2
              exact index_of_first_match_ge _ _ _ _ h2
            · rw [if_neg hth] at h
              exact le_trans (by omega) (ihn (j + 1) (by omega) h)
      · rw [innerScan, dif_neg hj] at h
        cases h

/-- Outer while-loop of the falling-interval search: on an index at
depth at most 0 with a valid later peak, record the decrease interval
from the peak's start to this index's start and jump past the located
zero-crossing. -/
def outerScan (qd_values : List Int) (queue_depth_list : List Interval)
    (i : Nat) (acc : List Interval) : List Interval :=
  if h : i < qd_values.length then
    if 0 < qd_values.getD i 0 then
      outerScan qd_values queue_depth_list (i + 1) acc
    else
      match hres : innerScan qd_values (i + 1) with
      | some (p, nmi) =>
          outerScan qd_values queue_depth_list ((nmi.getD i) + 1)
            (acc ++ [Interval.mk (queue_depth_list.getD p default).start
              (queue_depth_list.getD i default).start (-1)])
      | none => outerScan qd_values queue_depth_list (i + 1) acc
  else acc
termination_by qd_values.length - i
decreasing_by
  · omega
  · cases nmi with
    | none =>
        simp only [Option.getD]
        omega
    | some k =>
        have := innerScan_some_ge qd_values (i + 1) p k hres
        simp only [Option.getD]
        omega
  · omega

/-- The decrease intervals computed by rank_events from the (reversed)
queue-depth timeline. -/
def decreaseIntervals (queue_depth_list : List Interval) : List Interval :=
  outerScan ((queue_depth_list.reverse).map (fun e => e.queue_depth))
    queue_depth_list.reverse 0 []

/-- Events that overlap at least one decrease interval (Python keeps an
event when its intervals_overlap result is truthy, i.e. non-zero). -/
def survivors (ev : BasicEvaluation) : List CpuEvent :=
  ev.keysInOrder.filter
    (fun e => decide (intervalsOverlap e (decreaseIntervals ev.queue_depth_list) ≠ 0))

/-- The metrics record of a key (dictionary access). -/
def metricOf (m : List (Nat × EventMetrics)) (i : Nat) : EventMetrics :=
  (m.lookup i).getD {}

/-- Mean of a list of reals (torch.mean). -/
noncomputable def listMean (l : List ℝ) : ℝ := l.sum / l.length

/-- Unbiased standard deviation of a list of reals (torch.std divides
by n - 1). -/
noncomputable def listStd (l : List ℝ) : ℝ :=
  Real.sqrt ((l.map (fun x => (x - listMean l) ^ 2)).sum / ((l.length : ℝ) - 1))

/-- Modelled from the spec: EventMetrics.fraction_idle_time (a property
of the torch dataclass, not part of the sources) is
idle_time_ns / duration_time_ns. -/
noncomputable def fraction_idle_time (m : List (Nat × EventMetrics))
    (e : CpuEvent) : ℝ :=
  ((metricOf m e.id).idle_time_ns : ℝ) / ((metricOf m e.id).duration_time_ns : ℝ)

/-- Heuristic score of a surviving event: standardised idle fraction
plus 0.6 times the standardised self time, both standardised over the
survivor set. -/
noncomputable def heuristicScore (ev : BasicEvaluation) (e : CpuEvent) : ℝ :=
  (fraction_idle_time ev.metrics e
      - listMean ((survivors ev).map (fraction_idle_time ev.metrics)))
    / listStd ((survivors ev).map (fraction_idle_time ev.metrics))
  + 0.6 * (((metricOf ev.metrics e.id).self_time_ns : ℝ)
      - listMean ((survivors ev).map
          (fun x => ((metricOf ev.metrics x.id).self_time_ns : ℝ))))
    / listStd ((survivors ev).map
        (fun x => ((metricOf ev.metrics x.id).self_time_ns : ℝ)))

/-- Stable insertion for descending order (Python sorted with
reverse=True keeps the original order of equal keys). -/
def insertDescBy {α β : Type} [LinearOrder β] (key : α → β) (x : α) :
    List α → List α
  | [] => [x]
  | y :: ys => if key y ≤ key x then x :: y :: ys else y :: insertDescBy key x ys

/-- Stable descending sort by key. -/
def sortDescBy {α β : Type} [LinearOrder β] (key : α → β) :
    List α → List α
  | [] => []
  | x :: xs => insertDescBy key x (sortDescBy key xs)

/-- rank_events: filter the events down to the survivors; when any
survive, standardise and score them, sort descending by score and
truncate to the requested length. -/
noncomputable def rank_events (ev : BasicEvaluation) (length : Nat) :
    List CpuEvent :=
  if (survivors ev).isEmpty then survivors ev
  else (sortDescBy (heuristicScore ev) (survivors ev)).take length

theorem insertDescBy_perm {α β : Type} [LinearOrder β] (key : α → β)
    (x : α) (l : List α) :
    List.Perm (insertDescBy key x l) (x :: l) := by
  induction l with
  | nil => exact List.Perm.refl _
  | cons y ys ih =>
      rw [insertDescBy]
      by_cases h : key y ≤ key x
      · rw [if_pos h]
      · rw [if_neg h]
        exact (List.Perm.cons y ih).trans (List.Perm.swap x y ys)

theorem sortDescBy_perm {α β : Type} [LinearOrder β] (key : α → β)
    (l : List α) : List.Perm (sortDescBy key l) l := by
  induction l with
  | nil => exact List.Perm.refl _
  | cons x xs ih =>
      rw [sortDescBy]
      exact (insertDescBy_perm key x (sortDescBy key xs)).trans
        (List.Perm.cons x ih)

theorem insertDescBy_sorted {α β : Type} [LinearOrder β] (key : α → β)
    (x : α) (l : List α)
    (h : List.Pairwise (fun a b => key b ≤ key a) l) :
    List.Pairwise (fun a b => key b ≤ key a) (insertDescBy key x l) := by
  induction l with
  | nil => simp [insertDescBy]
  | cons y ys ih =>
      have hy := (List.pairwise_cons.mp h).1
      have hys := (List.pairwise_cons.mp h).2
      rw [insertDescBy]
      by_cases hc : key y ≤ key x
      · rw [if_pos hc]
        refine List.Pairwise.cons ?_ h
        intro b hb
        rcases List.mem_cons.mp hb with hb | hb
        · subst hb; exact hc
        · exact le_trans (hy b hb) hc
      · rw [if_neg hc]
        refine List.Pairwise.cons ?_ (ih hys)
        intro b hb
        have hb2 := (insertDescBy_perm key x ys).mem_iff.mp hb
        rcases List.mem_cons.mp hb2 with hb2 | hb2
        · subst hb2
          exact le_of_lt (lt_of_not_le hc)
        · exact hy b hb2

theorem sortDescBy_sorted {α β : Type} [LinearOrder β] (key : α → β)
    (l : List α) :
    List.Pairwise (fun a b => key b ≤ key a) (sortDescBy key l) := by
  induction l with
  | nil => exact List.Pairwise.nil
  | cons x xs ih =>
      rw [sortDescBy]
      exact insertDescBy_sorted key x _ ih

/-- Claim C8: rank_events 0 returns the empty list, and for every N at
least the number of survivors, rank_events N returns all survivors in
descending order of heuristic score. -/
theorem rank_events_full (ev : BasicEvaluation) (N : Nat)
    (hN : (survivors ev).length ≤ N) :
    rank_events ev 0 = [] ∧
    List.Perm (rank_events ev N) (survivors ev) ∧
    List.Pairwise (fun a b => heuristicScore ev b ≤ heuristicScore ev a)
      (rank_events ev N) := by
  by_cases hs : (survivors ev).isEmpty
  · have hnil : survivors ev = [] := by
      cases h : survivors ev with
      | nil => rfl
      | cons a l => rw [h] at hs; cases hs
    rw [rank_events, if_pos hs, rank_events, if_pos hs, hnil]
    exact ⟨rfl, List.Perm.refl _, List.Pairwise.nil⟩
  · rw [rank_events, if_neg hs, rank_events, if_neg hs]
    have hlen : (sortDescBy (heuristicScore ev) (survivors ev)).length ≤ N := by
      rw [(sortDescBy_perm (heuristicScore ev) (survivors ev)).length_eq]
      exact hN
    rw [List.take_zero, List.take_of_length_le hlen]
    exact ⟨rfl, sortDescBy_perm _ _, sortDescBy_sorted _ _⟩

/-- The empty analysis state. -/
def emptyEv : BasicEvaluation := ⟨[], [], [], [], [], []⟩

/-- Witness for C8 on the empty state. -/
theorem rank_events_full_witness :
    rank_events emptyEv 0 = [] ∧
    List.Perm (rank_events emptyEv 0) (survivors emptyEv) ∧
    List.Pairwise
      (fun a b => heuristicScore emptyEv b ≤ heuristicScore emptyEv a)
      (rank_events emptyEv 0) :=
  rank_events_full emptyEv 0 (by simp [survivors, emptyEv])

/-- Claim C7 amended: only the empty survivor set is guarded - when no
event overlaps a decrease interval, rank_events returns the empty list
without attempting standardisation. -/
theorem rank_events_empty_guard (ev : BasicEvaluation) (length : Nat)
    (h : survivors ev = []) : rank_events ev length = [] := by
  rw [rank_events, if_pos (by rw [h]; rfl), h]

/-- Witness for the amended C7. -/
theorem rank_events_empty_guard_witness : rank_events emptyEv 3 = [] :=
  rank_events_empty_guard emptyEv 3 (by simp [survivors, emptyEv])

/-- CPU event overlapping the C7 decrease interval. -/
def c7event : CpuEvent := .node 0 "op" 100 600 []

/-- Analysis state with a single surviving event: a depth-5 spike
followed by a zero interval, and one CPU event inside the spike. -/
def c7ev : BasicEvaluation :=
  ⟨[(0, ⟨500, 500, 250, 0⟩)], [c7event], [c7event], [],
   [⟨0, 10000, 5⟩, ⟨10000, 20000, 0⟩], []⟩

theorem innerScan_c7 : innerScan [0, 5] 1 = some (1, none) := by
  rw [innerScan]
  norm_num [argmax, index_of_first_match, findIdxFrom, firstMaxIdx, maxList,
    List.getD]

theorem outer_c7 :
    outerScan [0, 5] [⟨10000, 20000, 0⟩, ⟨0, 10000, 5⟩] 0 []
      = [⟨0, 10000, -1⟩] := by
  rw [outerScan]
  norm_num [List.getD]
  split
  case _ p nmi hres =>
    rw [show (0 + 1) = 1 from rfl, innerScan_c7] at hres
    cases hres
    norm_num [Option.getD, List.getD]
    rw [outerScan]
    norm_num [List.getD]
    rw [outerScan]
    norm_num
  case _ hres =>
    rw [show (0 + 1) = 1 from rfl, innerScan_c7] at hres
    cases hres

theorem dec_c7 :
    decreaseIntervals [⟨0, 10000, 5⟩, ⟨10000, 20000, 0⟩]
      = [⟨0, 10000, -1⟩] := by
  rw [decreaseIntervals]
  norm_num
  exact outer_c7

theorem survivors_c7 : survivors c7ev = [c7event] := by
  rw [survivors]
  norm_num [c7ev, dec_c7, List.filter, intervalsOverlap, unionOverlapGo,
    sortByKey, insertByKey, c7event, CpuEvent.start_time_ns,
    CpuEvent.end_time_ns]

/-- Counterexample to claim C7 as stated: with a degenerate sample of
exactly one surviving event, rank_events does not return "no scored
events" - it returns that single survivor (only the empty survivor set
is guarded). -/
theorem rank_events_degenerate_counterexample :
    survivors c7ev = [c7event] ∧ rank_events c7ev 1 = [c7event] := by
  refine ⟨survivors_c7, ?_⟩
  rw [rank_events, if_neg (by rw [survivors_c7]; simp), survivors_c7]
  rw [sortDescBy, sortDescBy, insertDescBy]
  simp

end CambriconProfiler
